import Mathlib

/-
Verification of the FreeYOLO anchor-free detection post-processing pipeline,
a shallow embedding of `models/yolo_free/yolo_free.py` (class `FreeYOLO`).

The network itself (backbone, neck, FPN, heads) is an external collaborator:
the embedding starts from the flattened per-level prediction tensors that
`inference_single_image` extracts from it — per level, an objectness logit per
cell, a class-logit vector per cell and a 4-value box regression per cell, all
indexed by the row-major flattened cell index.  Tensor values are modelled as
real numbers, tensors as lists or index functions.
-/

namespace FreeYOLO

/-- Logistic sigmoid, the embedding of `torch.Tensor.sigmoid` applied to one
scalar entry. -/
noncomputable def sigmoid (x : ℝ) : ℝ := 1 / (1 + Real.exp (-x))

/-- Axis-aligned box `(x1, y1, x2, y2)` in image-pixel coordinates. -/
structure Box where
  x1 : ℝ
  y1 : ℝ
  x2 : ℝ
  y2 : ℝ

/-- The flattened raw predictions of one pyramid level, as
`inference_single_image` builds them before post-processing: `fmp_h` and
`fmp_w` are the feature-map height and width, `obj i` the objectness logit of
flattened cell `i`, `cls i k` the logit of class `k` at cell `i`, `reg i` the
4-value box regression of cell `i`, and `stride` the level's stride
(`self.stride[level]`). -/
structure LevelPreds where
  fmp_h : ℕ
  fmp_w : ℕ
  obj : ℕ → ℝ
  cls : ℕ → ℕ → ℝ
  reg : ℕ → Fin 4 → ℝ
  stride : ℝ

/-- Embedding of `FreeYOLO.generate_anchors`: `torch.meshgrid` of
`arange(fmp_h)` and `arange(fmp_w)` stacked as `(x, y)`, flattened row-major,
shifted by `0.5` and scaled by the level's stride. -/
noncomputable def generate_anchors (fmp_h fmp_w : ℕ) (stride : ℝ) : List (ℝ × ℝ) :=
  (List.range fmp_h).flatMap (fun row =>
    (List.range fmp_w).map (fun col =>
      (((col : ℕ) + (0.5 : ℝ)) * stride, ((row : ℕ) + (0.5 : ℝ)) * stride)))

/-- Embedding of `FreeYOLO.decode_boxes` for one anchor: the center is the
anchor plus the first two regression values times the stride, the size is the
exponential of the last two regression values times the stride, and the
corners are the center minus/plus half the size.  No clamping happens here. -/
noncomputable def decode_boxes (anchor : ℝ × ℝ) (pred_reg : Fin 4 → ℝ) (stride : ℝ) : Box :=
  { x1 := (anchor.1 + pred_reg 0 * stride) - 0.5 * (Real.exp (pred_reg 2) * stride),
    y1 := (anchor.2 + pred_reg 1 * stride) - 0.5 * (Real.exp (pred_reg 3) * stride),
    x2 := (anchor.1 + pred_reg 0 * stride) + 0.5 * (Real.exp (pred_reg 2) * stride),
    y2 := (anchor.2 + pred_reg 1 * stride) + 0.5 * (Real.exp (pred_reg 3) * stride) }

/-- Embedding of `scores_i = (torch.sqrt(obj_pred_i.sigmoid() *
cls_pred_i.sigmoid())).flatten()` in `FreeYOLO.post_process`: the `[HW, 1]`
objectness column broadcast against the `[HW, C]` class scores and flattened
cell-major, class-minor into `HW * C` entries. -/
noncomputable def fused_scores (num_classes HW : ℕ) (obj : ℕ → ℝ) (cls : ℕ → ℕ → ℝ) :
    List ℝ :=
  (List.range HW).flatMap (fun cell =>
    (List.range num_classes).map (fun k =>
      Real.sqrt (sigmoid (obj cell) * sigmoid (cls cell k))))

/-- The per-level flattened scoring surface of `FreeYOLO.post_process`. -/
noncomputable def level_scores (num_classes : ℕ) (lp : LevelPreds) : List ℝ :=
  fused_scores num_classes (lp.fmp_h * lp.fmp_w) lp.obj lp.cls

/-- Embedding of `scores_i.sort(descending=True)` on score/index pairs:
entries ordered by descending score. -/
noncomputable def score_sort (l : List (ℕ × ℝ)) : List (ℕ × ℝ) :=
  l.mergeSort (fun a b => decide (b.2 ≤ a.2))

/-- Embedding of the top-k step of `FreeYOLO.post_process`: the sorted
score/index pairs truncated to `num_topk = min(self.topk, reg_pred_i.size(0))`
— note that `reg_pred_i.size(0)` is the cell count `fmp_h * fmp_w`, not the
size `fmp_h * fmp_w * num_classes` of the scoring surface. -/
noncomputable def level_topk (topk num_classes : ℕ) (lp : LevelPreds) : List (ℕ × ℝ) :=
  (score_sort (level_scores num_classes lp).enum).take (min topk (lp.fmp_h * lp.fmp_w))

/-- A scored, classified, decoded candidate box (one row of the per-level
`scores` / `labels` / `bboxes` triple of `FreeYOLO.post_process`). -/
structure Cand where
  score : ℝ
  label : ℕ
  box : Box

/-- Embedding of the rest of the per-level loop of `FreeYOLO.post_process`:
the top-k pairs are filtered by `topk_scores > self.conf_thresh`, each
surviving flat index is split as `anchor_idx = idx // num_classes` and
`label = idx % num_classes`, and the box of cell `anchor_idx` is decoded from
its anchor and regression. -/
noncomputable def level_candidates (topk num_classes : ℕ) (conf_thresh : ℝ)
    (lp : LevelPreds) : List Cand :=
  ((level_topk topk num_classes lp).filter (fun p => decide (conf_thresh < p.2))).map
    (fun p =>
      { score := p.2,
        label := p.1 % num_classes,
        box := decode_boxes
          ((generate_anchors lp.fmp_h lp.fmp_w lp.stride).getD (p.1 / num_classes) (0, 0))
          (lp.reg (p.1 / num_classes)) lp.stride })

/-- Modelled from the spec: the area of a box used by the IoU computation of
`multiclass_nms` (`utils/nms.py`, imported by `yolo_free.py` but not among the
repository files); a zero- or negative-extent box contributes area 0. -/
noncomputable def box_area (b : Box) : ℝ :=
  max (b.x2 - b.x1) 0 * max (b.y2 - b.y1) 0

/-- Modelled from the spec: the intersection area of two boxes; a pair with no
overlap contributes area 0. -/
noncomputable def inter_area (a b : Box) : ℝ :=
  max (min a.x2 b.x2 - max a.x1 b.x1) 0 * max (min a.y2 b.y2 - max a.y1 b.y1) 0

/-- Modelled from the spec: intersection over union, with `iou = 0` when the
union area is 0. -/
noncomputable def iou (a b : Box) : ℝ :=
  if box_area a + box_area b - inter_area a b = 0 then 0
  else inter_area a b / (box_area a + box_area b - inter_area a b)

/-- Modelled from the spec: the sort order of candidates entering per-class
NMS — descending score, ties broken by original (aggregated) index
ascending. -/
noncomputable def nms_le (a b : ℕ × Cand) : Bool :=
  decide (b.2.score < a.2.score ∨ (b.2.score = a.2.score ∧ a.1 ≤ b.1))

/-- Modelled from the spec: the greedy suppression loop of `multiclass_nms` —
keep the highest-scoring remaining candidate, drop every remaining candidate
whose IoU with it exceeds the threshold, repeat. -/
noncomputable def nms_greedy (t : ℝ) : List (ℕ × Cand) → List (ℕ × Cand)
  | [] => []
  | c :: rest =>
      c :: nms_greedy t (rest.filter (fun d => decide (iou c.2.box d.2.box ≤ t)))
termination_by l => l.length
decreasing_by
  simp only [List.length_cons]
  exact Nat.lt_succ_of_le (List.length_filter_le _ _)

/-- Modelled from the spec: the candidates of class `c` kept by NMS — gather
the candidates with that label, sort them, run the greedy loop. -/
noncomputable def nms_class_keep (cands : List Cand) (t : ℝ) (c : ℕ) : List (ℕ × Cand) :=
  nms_greedy t ((cands.enum.filter (fun p => decide (p.2.label = c))).mergeSort nms_le)

/-- Modelled from the spec: `multiclass_nms(scores, labels, bboxes,
nms_thresh, num_classes, False)` — per-class greedy NMS, results concatenated
over the classes. -/
noncomputable def multiclass_nms (cands : List Cand) (nms_thresh : ℝ) (num_classes : ℕ) :
    List Cand :=
  (List.range num_classes).flatMap
    (fun c => (nms_class_keep cands nms_thresh c).map Prod.snd)

/-- Embedding of `FreeYOLO.post_process`: per-level candidates concatenated in
level order, then multiclass NMS over the aggregate. -/
noncomputable def post_process (topk num_classes : ℕ) (conf_thresh nms_thresh : ℝ)
    (levels : List LevelPreds) : List Cand :=
  multiclass_nms (levels.flatMap (level_candidates topk num_classes conf_thresh))
    nms_thresh num_classes

/-- Embedding of `numpy.ndarray.clip(0., 1.)` on one scalar. -/
noncomputable def clip01 (x : ℝ) : ℝ := min (max x 0) 1

/-- Embedding of the final normalization of `inference_single_image`:
`bboxes /= max(img_h, img_w)` followed by `bboxes.clip(0., 1.)`. -/
noncomputable def normalize_box (m : ℝ) (b : Box) : Box :=
  { x1 := clip01 (b.x1 / m), y1 := clip01 (b.y1 / m),
    x2 := clip01 (b.x2 / m), y2 := clip01 (b.y2 / m) }

/-- The decoded branch of `inference_single_image`: post-processing followed
by box normalization. -/
noncomputable def detections (topk num_classes : ℕ)
    (conf_thresh nms_thresh img_h img_w : ℝ) (levels : List LevelPreds) : List Cand :=
  (post_process topk num_classes conf_thresh nms_thresh levels).map
    (fun c => { c with box := normalize_box (max img_h img_w) c.box })

/-- The row the no-decode branch emits for one cell: the 4 raw regression
values, then the objectness sigmoid, then the class sigmoids. -/
noncomputable def cell_row (num_classes : ℕ) (lp : LevelPreds) (cell : ℕ) : List ℝ :=
  (List.ofFn (fun j : Fin 4 => lp.reg cell j)) ++
    [sigmoid (lp.obj cell)] ++
    (List.range num_classes).map (fun k => sigmoid (lp.cls cell k))

/-- The rows of `reg_preds = torch.cat(all_reg_preds, dim=0)`. -/
noncomputable def reg_rows (levels : List LevelPreds) : List (List ℝ) :=
  levels.flatMap (fun lp =>
    (List.range (lp.fmp_h * lp.fmp_w)).map (fun i => List.ofFn (fun j : Fin 4 => lp.reg i j)))

/-- The rows of `obj_preds.sigmoid()` after `torch.cat(all_obj_preds, dim=0)`. -/
noncomputable def obj_rows (levels : List LevelPreds) : List (List ℝ) :=
  levels.flatMap (fun lp =>
    (List.range (lp.fmp_h * lp.fmp_w)).map (fun i => [sigmoid (lp.obj i)]))

/-- The rows of `cls_preds.sigmoid()` after `torch.cat(all_cls_preds, dim=0)`. -/
noncomputable def cls_rows (num_classes : ℕ) (levels : List LevelPreds) : List (List ℝ) :=
  levels.flatMap (fun lp =>
    (List.range (lp.fmp_h * lp.fmp_w)).map (fun i =>
      (List.range num_classes).map (fun k => sigmoid (lp.cls i k))))

/-- Embedding of the no-decode branch of `inference_single_image`:
`torch.cat([reg_preds, obj_preds.sigmoid(), cls_preds.sigmoid()], dim=-1)`
over the level-concatenated per-cell rows. -/
noncomputable def no_decode_output (num_classes : ℕ) (levels : List LevelPreds) :
    List (List ℝ) :=
  ((reg_rows levels).zip ((obj_rows levels).zip (cls_rows num_classes levels))).map
    (fun p => p.1 ++ p.2.1 ++ p.2.2)

/-- The two result shapes of `inference_single_image`: the raw pass-through
tensor of the no-decode branch, or the decoded detection list. -/
inductive Output where
  | raw : List (List ℝ) → Output
  | dets : List Cand → Output

/-- Embedding of `FreeYOLO.inference_single_image` downstream of the network:
with `no_decode` set the raw per-cell concatenation is returned and grid
generation, decoding, filtering and NMS are never entered; otherwise the
decoded, suppressed, normalized detections are returned. -/
noncomputable def inference_single_image (no_decode : Bool) (topk num_classes : ℕ)
    (conf_thresh nms_thresh img_h img_w : ℝ) (levels : List LevelPreds) : Output :=
  if no_decode then Output.raw (no_decode_output num_classes levels)
  else Output.dets (detections topk num_classes conf_thresh nms_thresh img_h img_w levels)

/-- A concrete one-cell level (all logits and regressions 0, stride 1) used to
evaluate the pipeline at explicit inputs. -/
noncomputable def lpOne : LevelPreds :=
  { fmp_h := 1, fmp_w := 1, obj := fun _ => 0, cls := fun _ _ => 0,
    reg := fun _ _ => 0, stride := 1 }

/-- The detection the pipeline produces from `lpOne`. -/
noncomputable def cOne : Cand :=
  { score := 1 / 2, label := 0, box := { x1 := 0, y1 := 0, x2 := 1, y2 := 1 } }

/-! Indexing of a row-major flattened rectangular layout. -/

theorem range_flatMap_length {α : Type} (n m : ℕ) (f : ℕ → ℕ → α) :
    ((List.range n).flatMap (fun a => (List.range m).map (f a))).length = n * m := by
  induction n with
  | zero => simp
  | succ k ih =>
    rw [List.range_succ, List.flatMap_append, List.length_append, ih]
    simp [Nat.succ_mul]

theorem range_flatMap_getD {α : Type} (n m : ℕ) (f : ℕ → ℕ → α) (d : α) :
    ∀ i, i < n * m →
      ((List.range n).flatMap (fun a => (List.range m).map (f a))).getD i d =
        f (i / m) (i % m) := by
  induction n with
  | zero => intro i hi; omega
  | succ k ih =>
    intro i hi
    rw [Nat.succ_mul] at hi
    rw [List.range_succ, List.flatMap_append]
    by_cases h : i < k * m
    · rw [List.getD_append _ _ _ _ (by rw [range_flatMap_length]; exact h)]
      exact ih i h
    · have hkm : k * m ≤ i := Nat.le_of_not_lt h
      have hm : 0 < m := by omega
      have hr : i - k * m < m := by omega
      rw [List.getD_append_right _ _ _ _ (by rw [range_flatMap_length]; exact hkm)]
      rw [range_flatMap_length]
      have hsplit : i = (i - k * m) + m * k := by
        have : m * k = k * m := Nat.mul_comm m k
        omega
      have hdiv : i / m = k := by
        conv_lhs => rw [hsplit]
        rw [Nat.add_mul_div_left _ _ hm, Nat.div_eq_of_lt hr, Nat.zero_add]
      have hmod : i % m = i - k * m := by
        conv_lhs => rw [hsplit]
        rw [Nat.add_mul_mod_self_left, Nat.mod_eq_of_lt hr]
      rw [hdiv, hmod]
      simp only [List.flatMap_cons, List.flatMap_nil, List.append_nil]
      rw [List.getD_eq_getElem _ _ (by simpa using hr)]
      simp

theorem snd_mem_of_mem_enum {α : Type} {l : List α} {p : ℕ × α} (hp : p ∈ l.enum) :
    p.2 ∈ l := by
  obtain ⟨h, he⟩ := List.getElem?_eq_some_iff.1 (List.mem_enum_iff_getElem?.1 hp)
  exact he ▸ List.getElem_mem h

/-! Range bounds of the scalar operations. -/

theorem sigmoid_pos (x : ℝ) : 0 < sigmoid x := by
  unfold sigmoid
  positivity

theorem sigmoid_le_one (x : ℝ) : sigmoid x ≤ 1 := by
  unfold sigmoid
  rw [div_le_one (by positivity)]
  nlinarith [Real.exp_pos (-x)]

theorem fused_score_le_one (a b : ℝ) : Real.sqrt (sigmoid a * sigmoid b) ≤ 1 :=
  Real.sqrt_le_one.2
    (mul_le_one₀ (sigmoid_le_one a) (le_of_lt (sigmoid_pos b)) (sigmoid_le_one b))

theorem clip01_nonneg (x : ℝ) : 0 ≤ clip01 x :=
  le_min (le_max_right x 0) zero_le_one

theorem clip01_le_one (x : ℝ) : clip01 x ≤ 1 :=
  min_le_right _ 1

/-! Structure of the per-level scoring surface. -/

theorem length_level_scores (num_classes : ℕ) (lp : LevelPreds) :
    (level_scores num_classes lp).length = lp.fmp_h * lp.fmp_w * num_classes :=
  range_flatMap_length _ _ _

theorem level_scores_getD (num_classes : ℕ) (lp : LevelPreds) :
    ∀ i, i < lp.fmp_h * lp.fmp_w * num_classes →
      (level_scores num_classes lp).getD i 0 =
        Real.sqrt (sigmoid (lp.obj (i / num_classes)) *
          sigmoid (lp.cls (i / num_classes) (i % num_classes))) :=
  range_flatMap_getD _ _ _ _

theorem level_topk_length (topk num_classes : ℕ) (lp : LevelPreds) :
    (level_topk topk num_classes lp).length =
      min (min topk (lp.fmp_h * lp.fmp_w)) (lp.fmp_h * lp.fmp_w * num_classes) := by
  unfold level_topk score_sort
  rw [List.length_take, List.length_mergeSort, List.enum_length, length_level_scores]

theorem level_topk_mem (topk num_classes : ℕ) (lp : LevelPreds) :
    ∀ p ∈ level_topk topk num_classes lp,
      p.1 < lp.fmp_h * lp.fmp_w * num_classes ∧
      p.2 = Real.sqrt (sigmoid (lp.obj (p.1 / num_classes)) *
        sigmoid (lp.cls (p.1 / num_classes) (p.1 % num_classes))) := by
  intro p hp
  have hsorted : p ∈ score_sort (level_scores num_classes lp).enum :=
    List.take_subset _ _ hp
  have henum : p ∈ (level_scores num_classes lp).enum :=
    (List.mergeSort_perm _ _).mem_iff.1 hsorted
  obtain ⟨hlen, hval⟩ := List.getElem?_eq_some_iff.1 (List.mem_enum_iff_getElem?.1 henum)
  rw [length_level_scores] at hlen
  refine ⟨hlen, ?_⟩
  rw [← level_scores_getD num_classes lp p.1 hlen,
    List.getD_eq_getElem _ _ (by rw [length_level_scores]; exact hlen), hval]

theorem level_candidates_mem (topk num_classes : ℕ) (conf_thresh : ℝ) (lp : LevelPreds) :
    ∀ c ∈ level_candidates topk num_classes conf_thresh lp,
      conf_thresh < c.score ∧ c.score ≤ 1 ∧ c.label < num_classes ∧
      ∃ i, i < lp.fmp_h * lp.fmp_w * num_classes ∧ c.label = i % num_classes ∧
        c.score = Real.sqrt (sigmoid (lp.obj (i / num_classes)) *
          sigmoid (lp.cls (i / num_classes) (i % num_classes))) ∧
        c.box = decode_boxes
          ((generate_anchors lp.fmp_h lp.fmp_w lp.stride).getD (i / num_classes) (0, 0))
          (lp.reg (i / num_classes)) lp.stride := by
  intro c hc
  obtain ⟨p, hp, hbuild⟩ := List.mem_map.1 hc
  obtain ⟨htop, hdec⟩ := List.mem_filter.1 hp
  obtain ⟨hidx, hscore⟩ := level_topk_mem topk num_classes lp p htop
  have hthr : conf_thresh < p.2 := of_decide_eq_true hdec
  have hcpos : 0 < num_classes := by
    rcases Nat.eq_zero_or_pos num_classes with h0 | h
    · rw [h0, Nat.mul_zero] at hidx; omega
    · exact h
  subst hbuild
  refine ⟨hthr, ?_, Nat.mod_lt _ hcpos, p.1, hidx, rfl, ?_, rfl⟩
  · rw [hscore]; exact fused_score_le_one _ _
  · rw [hscore]

/-! Facts about the spec-modelled multiclass NMS. -/

theorem inter_area_comm (a b : Box) : inter_area a b = inter_area b a := by
  unfold inter_area
  rw [min_comm a.x2 b.x2, max_comm a.x1 b.x1, min_comm a.y2 b.y2, max_comm a.y1 b.y1]

theorem iou_comm (a b : Box) : iou a b = iou b a := by
  unfold iou
  rw [inter_area_comm, add_comm (box_area a)]

theorem nms_greedy_subset (t : ℝ) (l : List (ℕ × Cand)) :
    ∀ d ∈ nms_greedy t l, d ∈ l := by
  induction l using nms_greedy.induct t with
  | case1 => simp [nms_greedy]
  | case2 c rest ih =>
    intro d hd
    rw [nms_greedy] at hd
    rcases List.mem_cons.1 hd with h | h
    · simp [h]
    · exact List.mem_cons_of_mem _ (List.mem_of_mem_filter (ih d h))

theorem nms_greedy_pairwise (t : ℝ) (l : List (ℕ × Cand)) :
    (nms_greedy t l).Pairwise (fun a b => iou a.2.box b.2.box ≤ t) := by
  induction l using nms_greedy.induct t with
  | case1 => simp [nms_greedy]
  | case2 c rest ih =>
    rw [nms_greedy]
    refine List.Pairwise.cons ?_ ih
    intro d hd
    have hmem := nms_greedy_subset _ _ d hd
    exact of_decide_eq_true (List.mem_filter.1 hmem).2

theorem nms_class_keep_mem (cands : List Cand) (t : ℝ) (c : ℕ) :
    ∀ p ∈ nms_class_keep cands t c, p.2.label = c ∧ p.2 ∈ cands := by
  intro p hp
  have hs := nms_greedy_subset _ _ p hp
  have hfil : p ∈ cands.enum.filter (fun p => decide (p.2.label = c)) :=
    (List.mergeSort_perm _ nms_le).mem_iff.1 hs
  obtain ⟨henum, hdec⟩ := List.mem_filter.1 hfil
  exact ⟨of_decide_eq_true hdec, snd_mem_of_mem_enum henum⟩

theorem multiclass_nms_subset (cands : List Cand) (t : ℝ) (num_classes : ℕ) :
    ∀ x ∈ multiclass_nms cands t num_classes, x ∈ cands := by
  intro x hx
  obtain ⟨c, _, hchunk⟩ := List.mem_flatMap.1 hx
  obtain ⟨p, hp, hsnd⟩ := List.mem_map.1 hchunk
  exact hsnd ▸ (nms_class_keep_mem cands t c p hp).2

/-! Concrete evaluation of the pipeline on the one-cell input `lpOne`. -/

theorem sigmoid_zero : sigmoid 0 = 1 / 2 := by
  unfold sigmoid
  rw [neg_zero, Real.exp_zero]
  norm_num

theorem lpOne_scores : level_scores 1 lpOne = [1 / 2] := by
  unfold level_scores fused_scores lpOne
  simp [List.range_succ]
  rw [sigmoid_zero, Real.sqrt_mul_self (by norm_num : (0 : ℝ) ≤ 1 / 2)]
  norm_num

theorem lpOne_topk (topk : ℕ) (h : 1 ≤ topk) :
    level_topk topk 1 lpOne = [(0, 1 / 2)] := by
  unfold level_topk
  rw [lpOne_scores]
  have h1 : lpOne.fmp_h * lpOne.fmp_w = 1 := rfl
  rw [h1, Nat.min_eq_right h]
  show (score_sort [(0, 1 / 2)]).take 1 = [(0, 1 / 2)]
  rw [score_sort, List.mergeSort_singleton]
  rfl

theorem lpOne_cands (topk : ℕ) (h : 1 ≤ topk) :
    level_candidates topk 1 (-1) lpOne = [cOne] := by
  unfold level_candidates
  rw [lpOne_topk topk h, List.filter_cons,
    if_pos (decide_eq_true (by norm_num : (-1 : ℝ) < 1 / 2))]
  rw [List.filter_nil, List.map_cons, List.map_nil]
  have hanch : (generate_anchors lpOne.fmp_h lpOne.fmp_w lpOne.stride).getD (0 / 1) (0, 0) =
      (1 / 2, 1 / 2) := by
    show (generate_anchors 1 1 1).getD 0 (0, 0) = (1 / 2, 1 / 2)
    unfold generate_anchors
    simp [List.range_succ]
    norm_num
  rw [hanch]
  unfold cOne
  have hreg : lpOne.reg (0 / 1) = fun _ => 0 := rfl
  rw [hreg]
  have hstride : lpOne.stride = 1 := rfl
  rw [hstride]
  unfold decode_boxes
  norm_num [Real.exp_zero]

theorem nms_single (t : ℝ) (c : Cand) (hc : c.label = 0) :
    multiclass_nms [c] t 1 = [c] := by
  unfold multiclass_nms nms_class_keep
  simp only [List.range_succ, List.range_zero, List.nil_append, List.flatMap_cons,
    List.flatMap_nil, List.append_nil]
  have henum : ([c].enum : List (ℕ × Cand)) = [(0, c)] := rfl
  rw [henum, List.filter_cons, if_pos (decide_eq_true hc), List.filter_nil,
    List.mergeSort_singleton]
  rw [nms_greedy, List.filter_nil, nms_greedy]
  rfl

theorem detections_lpOne (t : ℝ) (topk : ℕ) (h : 1 ≤ topk) :
    detections topk 1 (-1) t 1 1 [lpOne] = [cOne] := by
  unfold detections post_process
  rw [List.flatMap_cons, List.flatMap_nil, List.append_nil, lpOne_cands topk h,
    nms_single t cOne rfl, List.map_cons, List.map_nil]
  have hbox : normalize_box (max 1 1) cOne.box = cOne.box := by
    unfold normalize_box cOne clip01
    norm_num
  rw [hbox]

/-! Total order facts for the descending score sort. -/

theorem score_sort_take_drop (l : List (ℕ × ℝ)) (n : ℕ) :
    ∀ p ∈ (score_sort l).take n, ∀ q ∈ (score_sort l).drop n, q.2 ≤ p.2 := by
  have hsorted : (score_sort l).Pairwise (fun a b => b.2 ≤ a.2) := by
    have hs := @List.sorted_mergeSort (ℕ × ℝ) (fun a b => decide (b.2 ≤ a.2))
      (fun a b c hab hbc =>
        decide_eq_true (le_trans (of_decide_eq_true hbc) (of_decide_eq_true hab)))
      (fun a b => by
        rcases le_total b.2 a.2 with h | h
        · simp [decide_eq_true h]
        · simp [decide_eq_true h]) l
    exact hs.imp (fun h => of_decide_eq_true h)
  rw [← List.take_append_drop n (score_sort l), List.pairwise_append] at hsorted
  exact fun p hp q hq => hsorted.2.2 p hp q hq

/-- C1 (corrected claim): the number of candidates a level produces before
threshold filtering is `min(topk, H*W)` — the cap the code computes from
`reg_pred_i.size(0)`, the cell count, not from the `H*W*C` scoring surface —
and every selected pair scores at least as high as every pair the truncation
drops.  Holds whenever there is at least one class. -/
theorem level_topk_count (topk num_classes : ℕ) (lp : LevelPreds)
    (hc : 1 ≤ num_classes) :
    (level_topk topk num_classes lp).length = min topk (lp.fmp_h * lp.fmp_w) ∧
    ∀ p ∈ level_topk topk num_classes lp,
      ∀ q ∈ (score_sort (level_scores num_classes lp).enum).drop
          (min topk (lp.fmp_h * lp.fmp_w)), q.2 ≤ p.2 := by
  constructor
  · rw [level_topk_length]
    exact Nat.min_eq_left
      (le_trans (Nat.min_le_right _ _) (Nat.le_mul_of_pos_right _ hc))
  · exact fun p hp => score_sort_take_drop (level_scores num_classes lp).enum
      (min topk (lp.fmp_h * lp.fmp_w)) p hp

/-- C1, counterexample to the claim as stated: with one cell, two classes and
`topk = 2`, the claimed pre-threshold count `min(topk, H*W*C) = 2` differs
from the count the code produces, `min(topk, H*W) = 1`. -/
theorem level_topk_count_cex :
    (level_topk 2 2 lpOne).length ≠ min 2 (lpOne.fmp_h * lpOne.fmp_w * 2) := by
  rw [level_topk_length]
  decide

/-- C1, witness: the corrected count at `topk = 2` on the one-cell input. -/
theorem level_topk_count_witness :
    1 ≤ 2 ∧
    ((level_topk 2 2 lpOne).length = min 2 (lpOne.fmp_h * lpOne.fmp_w) ∧
     ∀ p ∈ level_topk 2 2 lpOne,
       ∀ q ∈ (score_sort (level_scores 2 lpOne).enum).drop
           (min 2 (lpOne.fmp_h * lpOne.fmp_w)), q.2 ≤ p.2) :=
  ⟨by decide, level_topk_count 2 2 lpOne (by decide)⟩

/-- C2: after multiclass NMS, any two distinct retained detections of the same
class have IoU at most the NMS threshold (in both argument orders); detections
of different classes are unconstrained. -/
theorem multiclass_nms_iou_invariant (cands : List Cand) (nms_thresh : ℝ)
    (num_classes : ℕ) :
    (multiclass_nms cands nms_thresh num_classes).Pairwise
      (fun d1 d2 => d1.label = d2.label →
        iou d1.box d2.box ≤ nms_thresh ∧ iou d2.box d1.box ≤ nms_thresh) := by
  unfold multiclass_nms
  rw [List.pairwise_flatMap]
  constructor
  · intro c _
    rw [List.pairwise_map]
    refine (nms_greedy_pairwise nms_thresh _).imp ?_
    intro a b h _
    exact ⟨h, by rw [iou_comm]; exact h⟩
  · refine (List.pairwise_lt_range num_classes).imp ?_
    intro c1 c2 hlt x hx y hy heq
    obtain ⟨p, hp, rfl⟩ := List.mem_map.1 hx
    obtain ⟨q, hq, rfl⟩ := List.mem_map.1 hy
    have h1 := (nms_class_keep_mem cands nms_thresh c1 p hp).1
    have h2 := (nms_class_keep_mem cands nms_thresh c2 q hq).1
    exact ((Nat.ne_of_lt hlt) (by rw [← h1, ← h2]; exact heq)).elim

/-- C2, witness: the invariant at a concrete (empty) candidate set. -/
theorem multiclass_nms_iou_invariant_witness :
    (multiclass_nms [] 0 0).Pairwise
      (fun d1 d2 => d1.label = d2.label →
        iou d1.box d2.box ≤ 0 ∧ iou d2.box d1.box ≤ 0) :=
  multiclass_nms_iou_invariant [] 0 0

/-- C3: every entry of the flattened scoring surface at flat index `i` is the
fused score `sqrt(sigmoid(obj) * sigmoid(cls))` of cell `i / C` and class
`i % C`, and every candidate a level emits carries the label `i % C`, the
fused score of, and the box decoded from the anchor and regression of cell
`i / C`, for some surviving flat index `i` — the round trip of the
cell-major, class-minor flattening. -/
theorem post_process_score_index_roundtrip (topk num_classes : ℕ) (conf_thresh : ℝ)
    (lp : LevelPreds) :
    (∀ i, i < lp.fmp_h * lp.fmp_w * num_classes →
      (level_scores num_classes lp).getD i 0 =
        Real.sqrt (sigmoid (lp.obj (i / num_classes)) *
          sigmoid (lp.cls (i / num_classes) (i % num_classes)))) ∧
    (∀ c ∈ level_candidates topk num_classes conf_thresh lp,
      ∃ i, i < lp.fmp_h * lp.fmp_w * num_classes ∧ c.label = i % num_classes ∧
        c.score = Real.sqrt (sigmoid (lp.obj (i / num_classes)) *
          sigmoid (lp.cls (i / num_classes) (i % num_classes))) ∧
        c.box = decode_boxes
          ((generate_anchors lp.fmp_h lp.fmp_w lp.stride).getD (i / num_classes) (0, 0))
          (lp.reg (i / num_classes)) lp.stride) :=
  ⟨level_scores_getD num_classes lp,
   fun c hc => (level_candidates_mem topk num_classes conf_thresh lp c hc).2.2.2⟩

/-- C4: `decode_boxes` computes center `anchor + (tx, ty) * stride`, size
`(exp tw, exp th) * stride` and the corners center ∓ size / 2, with no
clamping. -/
theorem decode_boxes_spec (anchor : ℝ × ℝ) (pred_reg : Fin 4 → ℝ) (stride : ℝ) :
    decode_boxes anchor pred_reg stride =
      { x1 := (anchor.1 + pred_reg 0 * stride) - Real.exp (pred_reg 2) * stride / 2,
        y1 := (anchor.2 + pred_reg 1 * stride) - Real.exp (pred_reg 3) * stride / 2,
        x2 := (anchor.1 + pred_reg 0 * stride) + Real.exp (pred_reg 2) * stride / 2,
        y2 := (anchor.2 + pred_reg 1 * stride) + Real.exp (pred_reg 3) * stride / 2 } := by
  unfold decode_boxes
  simp only [Box.mk.injEq]
  exact ⟨by ring, by ring, by ring, by ring⟩

/-- C5: grid generation yields exactly `H*W` points in row-major order, the
point of cell `(row, col)` being `((col + 0.5) * stride, (row + 0.5) *
stride)`. -/
theorem generate_anchors_spec (fmp_h fmp_w : ℕ) (stride : ℝ) :
    (generate_anchors fmp_h fmp_w stride).length = fmp_h * fmp_w ∧
    ∀ row col, row < fmp_h → col < fmp_w →
      (generate_anchors fmp_h fmp_w stride).getD (row * fmp_w + col) (0, 0) =
        (((col : ℕ) + (0.5 : ℝ)) * stride, ((row : ℕ) + (0.5 : ℝ)) * stride) := by
  constructor
  · exact range_flatMap_length _ _ _
  · intro row col hrow hcol
    have hw : 0 < fmp_w := by omega
    have hi : row * fmp_w + col < fmp_h * fmp_w := by
      calc row * fmp_w + col < row * fmp_w + fmp_w := by omega
        _ = (row + 1) * fmp_w := (Nat.succ_mul row fmp_w).symm
        _ ≤ fmp_h * fmp_w := Nat.mul_le_mul_right _ hrow
    have hdiv : (row * fmp_w + col) / fmp_w = row := by
      rw [Nat.add_comm, Nat.mul_comm row fmp_w, Nat.add_mul_div_left _ _ hw,
        Nat.div_eq_of_lt hcol, Nat.zero_add]
    have hmod : (row * fmp_w + col) % fmp_w = col := by
      rw [Nat.add_comm, Nat.mul_comm row fmp_w, Nat.add_mul_mod_self_left,
        Nat.mod_eq_of_lt hcol]
    unfold generate_anchors
    rw [range_flatMap_getD fmp_h fmp_w _ (0, 0) _ hi, hdiv, hmod]

/-- C6: every detection the pipeline returns has all four box coordinates in
`[0, 1]`, a score strictly above the confidence threshold and at most 1, and a
class label below the class count. -/
theorem inference_output_bounds (topk num_classes : ℕ)
    (conf_thresh nms_thresh img_h img_w : ℝ) (levels : List LevelPreds) :
    ∀ d ∈ detections topk num_classes conf_thresh nms_thresh img_h img_w levels,
      (0 ≤ d.box.x1 ∧ d.box.x1 ≤ 1) ∧ (0 ≤ d.box.y1 ∧ d.box.y1 ≤ 1) ∧
      (0 ≤ d.box.x2 ∧ d.box.x2 ≤ 1) ∧ (0 ≤ d.box.y2 ∧ d.box.y2 ≤ 1) ∧
      conf_thresh < d.score ∧ d.score ≤ 1 ∧ d.label < num_classes := by
  intro d hd
  obtain ⟨c, hc, rfl⟩ := List.mem_map.1 hd
  have hagg := multiclass_nms_subset _ _ _ c hc
  obtain ⟨lp, _, hlc⟩ := List.mem_flatMap.1 hagg
  obtain ⟨h1, h2, h3, _⟩ := level_candidates_mem topk num_classes conf_thresh lp c hlc
  exact ⟨⟨clip01_nonneg _, clip01_le_one _⟩, ⟨clip01_nonneg _, clip01_le_one _⟩,
    ⟨clip01_nonneg _, clip01_le_one _⟩, ⟨clip01_nonneg _, clip01_le_one _⟩, h1, h2, h3⟩

/-- C6, witness: the bounds hold of the one detection produced from the
concrete one-cell input. -/
theorem inference_output_bounds_witness :
    (0 ≤ cOne.box.x1 ∧ cOne.box.x1 ≤ 1) ∧ (0 ≤ cOne.box.y1 ∧ cOne.box.y1 ≤ 1) ∧
    (0 ≤ cOne.box.x2 ∧ cOne.box.x2 ≤ 1) ∧ (0 ≤ cOne.box.y2 ∧ cOne.box.y2 ≤ 1) ∧
    (-1 : ℝ) < cOne.score ∧ cOne.score ≤ 1 ∧ cOne.label < 1 :=
  inference_output_bounds 5 1 (-1) 0 1 1 [lpOne] cOne
    (by rw [detections_lpOne 0 5 (by norm_num)]; exact List.mem_singleton_self cOne)

theorem no_decode_output_eq (num_classes : ℕ) (levels : List LevelPreds) :
    no_decode_output num_classes levels =
      levels.flatMap (fun lp =>
        (List.range (lp.fmp_h * lp.fmp_w)).map (cell_row num_classes lp)) := by
  induction levels with
  | nil => rfl
  | cons lp ls ih =>
    unfold no_decode_output reg_rows obj_rows cls_rows at ih ⊢
    rw [List.flatMap_cons, List.flatMap_cons, List.flatMap_cons, List.flatMap_cons]
    rw [List.zip_append (by simp), List.zip_append (by simp), List.map_append]
    congr 1
    rw [List.zip_map', List.zip_map', List.map_map]
    exact List.map_congr_left (fun a _ => rfl)

/-- C7: with the no-decode flag set, the pipeline returns — without entering
grid generation, decoding, filtering or NMS — the per-cell concatenation
`[regression, sigmoid(objectness), sigmoid(class scores)]` of every level in
order, one row per cell, `sum of H*W over the levels` rows in total. -/
theorem no_decode_spec (topk num_classes : ℕ)
    (conf_thresh nms_thresh img_h img_w : ℝ) (levels : List LevelPreds) :
    inference_single_image true topk num_classes conf_thresh nms_thresh img_h img_w levels =
      Output.raw (no_decode_output num_classes levels) ∧
    no_decode_output num_classes levels =
      levels.flatMap (fun lp =>
        (List.range (lp.fmp_h * lp.fmp_w)).map (cell_row num_classes lp)) ∧
    (no_decode_output num_classes levels).length =
      (levels.map (fun lp => lp.fmp_h * lp.fmp_w)).sum := by
  refine ⟨rfl, no_decode_output_eq num_classes levels, ?_⟩
  rw [no_decode_output_eq, List.length_flatMap]
  congr 1
  apply List.map_congr_left
  intro lp _
  simp

/-- C9, counterexample to the claim as stated: the code performs no
configuration validation, so with the invalid threshold `nms_thresh = 1.5`
(outside `[0, 1]`) the pipeline does not fail at entry — it runs to completion
on a one-cell input and returns an ordinary detection. -/
theorem no_validation_counterexample :
    inference_single_image false 5 1 (-1) (3 / 2) 1 1 [lpOne] = Output.dets [cOne] := by
  unfold inference_single_image
  rw [if_neg (by simp), detections_lpOne (3 / 2) 5 (by norm_num)]

/-- C9 (corrected claim): no configuration value is validated — for every NMS
threshold, valid or not, and every positive top-k, the pipeline on the
one-cell input completes normally and returns the same detection list rather
than failing at call entry. -/
theorem no_validation_amended (nms_thresh : ℝ) (topk : ℕ) (h : 1 ≤ topk) :
    inference_single_image false topk 1 (-1) nms_thresh 1 1 [lpOne] =
      Output.dets [cOne] := by
  unfold inference_single_image
  rw [if_neg (by simp), detections_lpOne nms_thresh topk h]

/-- C9, witness: the amended statement at `nms_thresh = 2`, `topk = 1`. -/
theorem no_validation_amended_witness :
    1 ≤ 1 ∧
    inference_single_image false 1 1 (-1) 2 1 1 [lpOne] = Output.dets [cOne] :=
  ⟨by decide, no_validation_amended 2 1 (by decide)⟩

/-- C10: for every anchor, every regression 4-tuple and every positive stride,
the decoded box is non-degenerate: `x1 ≤ x2` and `y1 ≤ y2`, because the
decoded width and height `exp(t) * stride` are strictly positive. -/
theorem decode_boxes_nondegenerate (anchor : ℝ × ℝ) (pred_reg : Fin 4 → ℝ)
    (stride : ℝ) (hs : 0 < stride) :
    (decode_boxes anchor pred_reg stride).x1 ≤ (decode_boxes anchor pred_reg stride).x2 ∧
    (decode_boxes anchor pred_reg stride).y1 ≤ (decode_boxes anchor pred_reg stride).y2 := by
  have h2 : 0 < Real.exp (pred_reg 2) * stride := mul_pos (Real.exp_pos _) hs
  have h3 : 0 < Real.exp (pred_reg 3) * stride := mul_pos (Real.exp_pos _) hs
  constructor <;> simp [decode_boxes] <;> linarith

/-- C10, witness: the non-degeneracy at anchor `(4, 4)`, zero regression and
stride 8. -/
theorem decode_boxes_nondegenerate_witness :
    (0 : ℝ) < 8 ∧
    ((decode_boxes (4, 4) (fun _ => 0) 8).x1 ≤ (decode_boxes (4, 4) (fun _ => 0) 8).x2 ∧
     (decode_boxes (4, 4) (fun _ => 0) 8).y1 ≤ (decode_boxes (4, 4) (fun _ => 0) 8).y2) :=
  ⟨by norm_num, decode_boxes_nondegenerate (4, 4) (fun _ => 0) 8 (by norm_num)⟩

end FreeYOLO
